import Mathlib

/-!
Shallow embedding of the text-overlay image compositor `_apply_text_overlay`
from `src/main.py` of the armoriq repository, together with theorems checking
the specification's claims about it.

Strings are modelled as `List Char`; the PIL text measurement
`draw.textbbox((0, 0), s, font)[2]` / `[3]` is modelled by abstract width and
height functions parameterised by the font.  Python's floor division `//` on
possibly negative integers is `Int.fdiv`; `int(height / 15)`,
`int(width * 0.8)` and `int(font_size * 0.4)` round toward zero on
non-negative values and are modelled by natural-number division.
-/

namespace ArmorIQ

/-- The space character, written by code point to keep literals simple. -/
def spaceChar : Char := Char.ofNat 32

/-- Helper for `pyWords`: scan the characters, accumulating the current word. -/
def splitWordsAux : List Char → List Char → List (List Char)
  | [], cur => if cur = [] then [] else [cur]
  | c :: cs, cur =>
    if c.isWhitespace then
      if cur = [] then splitWordsAux cs [] else cur :: splitWordsAux cs []
    else
      splitWordsAux cs (cur ++ [c])

/-- Python `text.split()`: split on runs of whitespace, dropping empty pieces
(source: `words = text.split()` at src/main.py line 143). -/
def pyWords (s : List Char) : List (List Char) := splitWordsAux s []

/-- Python `" ".join(ws)` (source: `" ".join(current_line + [word])`). -/
def joinSp : List (List Char) → List Char
  | [] => []
  | [w] => w
  | w :: ws => w ++ spaceChar :: joinSp ws

/-- One iteration of the greedy wrap loop at src/main.py lines 146-153.
State is `(lines, current_line)`; `m` is the measured pixel width under the
primary font and `B` is `max_width`. -/
def wrapStep (m : List Char → Nat) (B : Nat)
    (st : List (List Char) × List (List Char)) (word : List Char) :
    List (List Char) × List (List Char) :=
  let test := joinSp (st.2 ++ [word])
  if m test ≤ B then (st.1, st.2 ++ [word])
  else (st.1 ++ [joinSp st.2], [word])

/-- The greedy wrapper at src/main.py lines 143-154: run the loop over the
words, then append the final `" ".join(current_line)`. -/
def wrapLines (m : List Char → Nat) (B : Nat) (ws : List (List Char)) :
    List (List Char) :=
  let st := ws.foldl (wrapStep m B) ([], [])
  st.1 ++ [joinSp st.2]

/-- Proof-side companion of `wrapStep` that keeps each line as its list of
words instead of joining it; same branch condition as the source loop. -/
def wrapGroupsStep (m : List Char → Nat) (B : Nat)
    (st : List (List (List Char)) × List (List Char)) (word : List Char) :
    List (List (List Char)) × List (List Char) :=
  let test := joinSp (st.2 ++ [word])
  if m test ≤ B then (st.1, st.2 ++ [word])
  else (st.1 ++ [st.2], [word])

/-- Proof-side companion of `wrapLines` over word groups. -/
def wrapGroups (m : List Char → Nat) (B : Nat) (ws : List (List Char)) :
    List (List (List Char)) :=
  let st := ws.foldl (wrapGroupsStep m B) ([], [])
  st.1 ++ [st.2]

/-- A loadable font handle: a TrueType face at a pixel size, or PIL's built-in
default from `ImageFont.load_default()`. -/
inductive Font where
  | truetype (path : String) (size : Nat)
  | builtin
deriving DecidableEq, Repr

/-- The candidate font paths tried in order (src/main.py lines 116-120). -/
def possible_fonts : List String :=
  ["/usr/share/fonts/truetype/dejavu/DejaVuSans.ttf", "arial.ttf", "seguiemj.ttf"]

/-- The font-resolution loop at src/main.py lines 122-139.  `env p = true`
means `ImageFont.truetype(p, size)` succeeds; the loop takes the first
candidate that loads and sets `bold_font = font`; if none loads, both fall
back to `ImageFont.load_default()`.  The model is a total function: the bare
`except: continue` means the loop itself never raises. -/
def resolveFonts (env : String → Bool) (font_size : Nat) : Font × Font :=
  match possible_fonts.find? env with
  | some path => (Font.truetype path font_size, Font.truetype path font_size)
  | none => (Font.builtin, Font.builtin)

/-- A decoded PIL image: pixel dimensions plus color mode. -/
structure PILImage where
  width : Nat
  height : Nat
  mode : String
deriving DecidableEq, Repr

/-- The observable result of `_apply_text_overlay`: the flattened output image,
the save format and quality, and the sequence of `draw.text` calls as
`(x, y, text)` triples in draw order. -/
structure OverlayOutput where
  out : PILImage
  fmt : String
  quality : Nat
  draws : List (Int × Int × List Char)
deriving DecidableEq, Repr

/-- Python truthiness of the optional `author` argument (`if author:`):
`None` and the empty string are falsy. -/
def isTruthy : Option (List Char) → Bool
  | none => false
  | some [] => false
  | some (_ :: _) => true

/-- The `author_text` variable: `""` initially, `f"- {author}"` when `author`
is truthy (src/main.py lines 160-163). -/
def authorLine (author : Option (List Char)) : List Char :=
  if isTruthy author then '-' :: spaceChar :: author.getD [] else []

/-- The quote-block height: `sum(textbbox(line)[3] for line in lines) +
(len(lines) - 1) * line_spacing` (src/main.py line 158). -/
def quoteHeight (mh : List Char → Nat) (spacing : Nat)
    (lines : List (List Char)) : Nat :=
  (lines.map mh).sum + (lines.length - 1) * spacing

/-- `total_height` including the author contribution
`author_h + line_spacing * 2` when `author` is truthy
(src/main.py lines 156-165). -/
def totalBlockHeight (mhF mhB : List Char → Nat) (spacing : Nat)
    (lines : List (List Char)) (author : Option (List Char)) : Nat :=
  quoteHeight mhF spacing lines +
    (if isTruthy author then mhB (authorLine author) + spacing * 2 else 0)

/-- One iteration of the drawing loop at src/main.py lines 169-172: draw the
line centered at the running `curr_y`, then advance by line height plus
spacing. -/
def drawLinesStep (mw mh : List Char → Nat) (width spacing : Nat)
    (acc : List (Int × Int × List Char) × Int) (line : List Char) :
    List (Int × Int × List Char) × Int :=
  (acc.1 ++ [(Int.fdiv ((width : Int) - (mw line : Int)) 2, acc.2, line)],
   acc.2 + (mh line : Int) + (spacing : Int))

/-- Shallow embedding of `_apply_text_overlay` (src/main.py lines 103-180).
`mW f s` / `mH f s` model `draw.textbbox((0, 0), s, font=f)[2]` / `[3]`;
`env` models which font paths load.  Decoding the input file and the per-pixel
brightness change keep the pixel dimensions, so only the mode conversions
touch the image record.  The function is total: the source has no raise for
any text or author value. -/
def applyTextOverlay (mW mH : Font → List Char → Nat) (env : String → Bool)
    (img0 : PILImage) (text : List Char) (author : Option (List Char)) :
    OverlayOutput :=
  let img : PILImage := { img0 with mode := "RGBA" }
  let width := img.width
  let height := img.height
  let font_size := height / 15
  let fonts := resolveFonts env font_size
  let font := fonts.1
  let bold_font := fonts.2
  let max_width := width * 4 / 5
  let lines := wrapLines (mW font) max_width (pyWords text)
  let line_spacing := font_size * 2 / 5
  let total_height := totalBlockHeight (mH font) (mH bold_font) line_spacing lines author
  let curr_y : Int := Int.fdiv ((height : Int) - (total_height : Int)) 2
  let st := lines.foldl (drawLinesStep (mW font) (mH font) width line_spacing)
      ([], curr_y)
  let draws :=
    if isTruthy author then
      st.1 ++ [(Int.fdiv ((width : Int) - (mW bold_font (authorLine author) : Int)) 2,
                st.2 + (line_spacing : Int), authorLine author)]
    else st.1
  { out := { width := width, height := height, mode := "RGB" },
    fmt := "JPEG", quality := 95, draws := draws }

/-- The author font size the specification prescribes:
`round(fontSizePrimary * 1.2)` pixels, written over naturals. -/
def specFontSizeAuthor (s : Nat) : Nat := (12 * s + 5) / 10

/-- Words produced by the splitter are non-empty and whitespace-free. -/
theorem splitWordsAux_good : ∀ (s cur : List Char),
    (∀ c ∈ cur, c.isWhitespace = false) →
    ∀ w ∈ splitWordsAux s cur, w ≠ [] ∧ ∀ c ∈ w, c.isWhitespace = false
  | [], cur, hcur, w, hw => by
    simp only [splitWordsAux] at hw
    split at hw
    · simp at hw
    · next h =>
      simp only [List.mem_singleton] at hw
      subst hw
      exact ⟨h, hcur⟩
  | c :: cs, cur, hcur, w, hw => by
    simp only [splitWordsAux] at hw
    split at hw
    · split at hw
      · exact splitWordsAux_good cs [] (by simp) w hw
      · next hne =>
        rcases List.mem_cons.mp hw with h | h
        · subst h; exact ⟨hne, hcur⟩
        · exact splitWordsAux_good cs [] (by simp) w h
    · next hws =>
      refine splitWordsAux_good cs (cur ++ [c]) ?_ w hw
      intro d hd
      rcases List.mem_append.mp hd with h | h
      · exact hcur d h
      · simp only [List.mem_singleton] at h
        subst h
        simpa using hws

/-- Scanning a whitespace-free block just moves it into the accumulator. -/
theorem splitWordsAux_shift : ∀ (w s cur : List Char),
    (∀ c ∈ w, c.isWhitespace = false) →
    splitWordsAux (w ++ s) cur = splitWordsAux s (cur ++ w)
  | [], s, cur, _ => by simp
  | c :: w, s, cur, h => by
    have hc : ¬ c.isWhitespace = true := by
      simp [h c (List.mem_cons_self c w)]
    have step : splitWordsAux ((c :: w) ++ s) cur = splitWordsAux (w ++ s) (cur ++ [c]) := by
      simp only [List.cons_append, splitWordsAux]
      rw [if_neg hc]
      rfl
    rw [step,
      splitWordsAux_shift w s (cur ++ [c]) (fun d hd => h d (List.mem_cons_of_mem c hd))]
    simp

/-- Splitting the space-join of non-empty whitespace-free words gives them
back: Python `" ".join(g).split() == g`. -/
theorem pyWords_joinSp : ∀ (gs : List (List Char)),
    (∀ g ∈ gs, g ≠ [] ∧ ∀ c ∈ g, c.isWhitespace = false) →
    pyWords (joinSp gs) = gs
  | [], _ => rfl
  | [g], h => by
    obtain ⟨hne, hfree⟩ := h g (by simp)
    show splitWordsAux (joinSp [g]) [] = [g]
    have hg : joinSp [g] = g ++ [] := by simp [joinSp]
    rw [hg, splitWordsAux_shift g [] [] hfree]
    simp [splitWordsAux, hne]
  | g :: g2 :: gs, h => by
    obtain ⟨hne, hfree⟩ := h g (by simp)
    have huf : splitWordsAux (spaceChar :: joinSp (g2 :: gs)) g
        = g :: splitWordsAux (joinSp (g2 :: gs)) [] := by
      simp only [splitWordsAux]
      rw [if_pos (by decide : spaceChar.isWhitespace = true), if_neg hne]
    calc splitWordsAux (joinSp (g :: g2 :: gs)) []
        = splitWordsAux (spaceChar :: joinSp (g2 :: gs)) ([] ++ g) := by
          exact splitWordsAux_shift g (spaceChar :: joinSp (g2 :: gs)) [] hfree
      _ = g :: splitWordsAux (joinSp (g2 :: gs)) [] := by rw [List.nil_append, huf]
      _ = g :: g2 :: gs :=
          congrArg (g :: ·) (pyWords_joinSp (g2 :: gs) (fun x hx => h x (by simp [hx])))

/-- The string-level wrap loop is the word-group wrap loop followed by
space-joining of each committed group. -/
theorem foldl_wrap_lockstep (m : List Char → Nat) (B : Nat) :
    ∀ (ws : List (List Char)) (gs : List (List (List Char))) (cur : List (List Char)),
    ws.foldl (wrapStep m B) (gs.map joinSp, cur)
      = ((ws.foldl (wrapGroupsStep m B) (gs, cur)).1.map joinSp,
         (ws.foldl (wrapGroupsStep m B) (gs, cur)).2)
  | [], gs, cur => rfl
  | w :: ws, gs, cur => by
    simp only [List.foldl_cons, wrapStep, wrapGroupsStep]
    by_cases h : m (joinSp (cur ++ [w])) ≤ B
    · rw [if_pos h, if_pos h]
      exact foldl_wrap_lockstep m B ws gs (cur ++ [w])
    · rw [if_neg h, if_neg h]
      have hmap : gs.map joinSp ++ [joinSp cur] = (gs ++ [cur]).map joinSp := by simp
      rw [hmap]
      exact foldl_wrap_lockstep m B ws (gs ++ [cur]) [w]

/-- The produced lines are exactly the space-joins of the produced groups. -/
theorem wrapLines_eq_map (m : List Char → Nat) (B : Nat) (ws : List (List Char)) :
    wrapLines m B ws = (wrapGroups m B ws).map joinSp := by
  unfold wrapLines wrapGroups
  have h := foldl_wrap_lockstep m B ws [] []
  simp only [List.map_nil] at h
  rw [h]
  simp

/-- Invariant of the group wrap loop: the words of all committed groups plus
the current group plus the unprocessed words are the original words. -/
theorem foldl_groups_flatten (m : List Char → Nat) (B : Nat) :
    ∀ (ws : List (List Char)) (gs : List (List (List Char))) (cur : List (List Char)),
    ((ws.foldl (wrapGroupsStep m B) (gs, cur)).1
        ++ [(ws.foldl (wrapGroupsStep m B) (gs, cur)).2]).flatten
      = gs.flatten ++ cur ++ ws
  | [], gs, cur => by simp
  | w :: ws, gs, cur => by
    simp only [List.foldl_cons, wrapGroupsStep]
    by_cases h : m (joinSp (cur ++ [w])) ≤ B
    · rw [if_pos h, foldl_groups_flatten m B ws gs (cur ++ [w])]
      simp
    · rw [if_neg h, foldl_groups_flatten m B ws (gs ++ [cur]) [w]]
      simp

/-- The wrapped groups partition the original word sequence in order. -/
theorem wrapGroups_flatten (m : List Char → Nat) (B : Nat) (ws : List (List Char)) :
    (wrapGroups m B ws).flatten = ws := by
  unfold wrapGroups
  simpa using foldl_groups_flatten m B ws [] []

/-- Invariant of the group wrap loop: every committed group either joins to a
line of measured width within the bound, or is a single word. -/
theorem foldl_groups_ok (m : List Char → Nat) (B : Nat) :
    ∀ (ws : List (List Char)) (gs : List (List (List Char))) (cur : List (List Char)),
    (∀ g ∈ gs, m (joinSp g) ≤ B ∨ ∃ w, g = [w]) →
    (m (joinSp cur) ≤ B ∨ ∃ w, cur = [w]) →
    ∀ g ∈ (ws.foldl (wrapGroupsStep m B) (gs, cur)).1
        ++ [(ws.foldl (wrapGroupsStep m B) (gs, cur)).2],
      m (joinSp g) ≤ B ∨ ∃ w, g = [w]
  | [], gs, cur, hgs, hcur => by
    intro g hg
    rcases List.mem_append.mp hg with h | h
    · exact hgs g h
    · simp only [List.mem_singleton] at h
      subst h
      exact hcur
  | w :: ws, gs, cur, hgs, hcur => by
    simp only [List.foldl_cons, wrapGroupsStep]
    by_cases h : m (joinSp (cur ++ [w])) ≤ B
    · rw [if_pos h]
      exact foldl_groups_ok m B ws gs (cur ++ [w]) hgs (Or.inl h)
    · rw [if_neg h]
      refine foldl_groups_ok m B ws (gs ++ [cur]) [w] ?_ (Or.inr ⟨w, rfl⟩)
      intro g hg
      rcases List.mem_append.mp hg with h2 | h2
      · exact hgs g h2
      · simp only [List.mem_singleton] at h2
        subst h2
        exact hcur

/-- Every wrapped group fits the width bound or is a single word. -/
theorem wrapGroups_ok (m : List Char → Nat) (B : Nat) (ws : List (List Char))
    (hm : m [] = 0) :
    ∀ g ∈ wrapGroups m B ws, m (joinSp g) ≤ B ∨ ∃ w, g = [w] := by
  unfold wrapGroups
  refine foldl_groups_ok m B ws [] [] (by simp) (Or.inl ?_)
  show m (joinSp []) ≤ B
  simp [joinSp, hm]

/-- All words of the original quote are non-empty and whitespace-free. -/
theorem pyWords_good (t : List Char) :
    ∀ w ∈ pyWords t, w ≠ [] ∧ ∀ c ∈ w, c.isWhitespace = false :=
  fun w hw => splitWordsAux_good t [] (by simp) w hw

/-- C1: for every quote with at least one non-empty word, concatenating the
words of the wrapped lines (splitting each line on whitespace, in line order)
is exactly the original word sequence: no word added, dropped, duplicated or
reordered. -/
theorem wrap_preserves_words (m : List Char → Nat) (B : Nat) (t : List Char)
    (hne : pyWords t ≠ []) :
    ((wrapLines m B (pyWords t)).map pyWords).flatten = pyWords t := by
  rw [wrapLines_eq_map, List.map_map]
  have hmem : ∀ g ∈ wrapGroups m B (pyWords t), ∀ w ∈ g, w ∈ pyWords t := by
    intro g hg w hw
    rw [← wrapGroups_flatten m B (pyWords t)]
    exact List.mem_flatten.mpr ⟨g, hg, hw⟩
  have hcongr : ∀ g ∈ wrapGroups m B (pyWords t), (pyWords ∘ joinSp) g = id g :=
    fun g hg => pyWords_joinSp g (fun w hw => pyWords_good t w (hmem g hg w hw))
  rw [List.map_congr_left hcongr, List.map_id, wrapGroups_flatten]

/-- C1 witness. -/
theorem wrap_preserves_words_witness :
    pyWords ['a', spaceChar, 'b'] ≠ [] ∧
    ((wrapLines (fun s => s.length) 1 (pyWords ['a', spaceChar, 'b'])).map pyWords).flatten
      = pyWords ['a', spaceChar, 'b'] :=
  ⟨by decide, wrap_preserves_words (fun s => s.length) 1 ['a', spaceChar, 'b'] (by decide)⟩

/-- C2: for a width measure giving the empty string width 0, every wrapped
line has measured width at most `max_width`, except a line that is a single
word whose own width exceeds `max_width`; and a candidate line whose width is
exactly `max_width` is accepted into the current line, not wrapped. -/
theorem wrap_width_bound (m : List Char → Nat) (B : Nat) (t : List Char)
    (hm : m [] = 0) :
    (∀ line ∈ wrapLines m B (pyWords t),
        m line ≤ B ∨ ∃ w ∈ pyWords t, line = w ∧ B < m w) ∧
    (∀ st : List (List Char) × List (List Char), ∀ w : List Char,
        m (joinSp (st.2 ++ [w])) = B → wrapStep m B st w = (st.1, st.2 ++ [w])) := by
  constructor
  · intro line hline
    rw [wrapLines_eq_map] at hline
    obtain ⟨g, hg, rfl⟩ := List.mem_map.mp hline
    rcases wrapGroups_ok m B (pyWords t) hm g hg with h | ⟨w, rfl⟩
    · exact Or.inl h
    · by_cases hle : m (joinSp [w]) ≤ B
      · exact Or.inl hle
      · have hw : w ∈ pyWords t := by
          rw [← wrapGroups_flatten m B (pyWords t)]
          exact List.mem_flatten.mpr ⟨[w], hg, by simp⟩
        refine Or.inr ⟨w, hw, rfl, ?_⟩
        have hjw : joinSp [w] = w := rfl
        rw [hjw] at hle
        omega
  · intro st w hEq
    unfold wrapStep
    rw [if_pos (le_of_eq hEq)]

/-- C2 witness. -/
theorem wrap_width_bound_witness :
    (fun (s : List Char) => s.length) [] = 0 ∧
    ((∀ line ∈ wrapLines (fun s => s.length) 2 (pyWords ['a', spaceChar, 'b']),
        (fun (s : List Char) => s.length) line ≤ 2 ∨
          ∃ w ∈ pyWords ['a', spaceChar, 'b'],
            line = w ∧ 2 < (fun (s : List Char) => s.length) w) ∧
     (∀ st : List (List Char) × List (List Char), ∀ w : List Char,
        (fun (s : List Char) => s.length) (joinSp (st.2 ++ [w])) = 2 →
          wrapStep (fun s => s.length) 2 st w = (st.1, st.2 ++ [w]))) :=
  ⟨rfl, wrap_width_bound (fun s => s.length) 2 ['a', spaceChar, 'b'] rfl⟩

/-- C3 counterexample: a single word of length 3 under a character-count
measure with `max_width = 2` wraps to an empty line followed by the word, not
to the one-element list the claim states. -/
theorem single_overlong_word_cex :
    wrapLines (fun s => s.length) 2 (pyWords ['a', 'b', 'c']) ≠ [['a', 'b', 'c']] ∧
    wrapLines (fun s => s.length) 2 (pyWords ['a', 'b', 'c']) = [[], ['a', 'b', 'c']] := by
  decide

/-- C3 amended: if the quote is exactly one word whose measured width exceeds
`max_width`, the wrapped sequence is an empty line followed by that word; the
word itself is not split and not discarded, but an empty line precedes it
because the loop commits the still-empty current line before starting the
word. -/
theorem single_overlong_word (m : List Char → Nat) (B : Nat) (t w : List Char)
    (h1 : pyWords t = [w]) (h2 : B < m w) :
    wrapLines m B (pyWords t) = [[], w] := by
  rw [h1]
  unfold wrapLines
  simp only [List.foldl_cons, List.foldl_nil, wrapStep]
  have hj : joinSp ([] ++ [w]) = w := rfl
  rw [if_neg (by rw [hj]; omega : ¬ m (joinSp ([] ++ [w])) ≤ B)]
  rfl

/-- C3 witness for the amended statement. -/
theorem single_overlong_word_witness :
    pyWords ['a', 'b', 'c'] = [['a', 'b', 'c']] ∧
    2 < (fun (s : List Char) => s.length) ['a', 'b', 'c'] ∧
    wrapLines (fun s => s.length) 2 (pyWords ['a', 'b', 'c']) = [[], ['a', 'b', 'c']] :=
  ⟨by decide, by decide,
    single_overlong_word (fun s => s.length) 2 ['a', 'b', 'c'] ['a', 'b', 'c']
      (by decide) (by decide)⟩

/-- C4 counterexample: on an empty quote the compositor does not fail — there
is no `InvalidInputError` anywhere in the source — and an output image is
produced: the wrapper yields the single empty line, which is drawn centered,
and the image is flattened and saved as usual. -/
theorem empty_quote_cex :
    applyTextOverlay (fun _ s => s.length) (fun _ _ => 10) (fun _ => false)
        ⟨100, 150, "RGB"⟩ [] none
      = { out := ⟨100, 150, "RGB"⟩, fmt := "JPEG", quality := 95,
          draws := [(50, 70, [])] } := by
  decide

/-- C4 amended: an empty or whitespace-only quote is not rejected; the call
proceeds, the wrapper produces the single empty line, and an output image
with the input's dimensions is produced. -/
theorem empty_quote_behavior (mW mH : Font → List Char → Nat) (env : String → Bool)
    (img : PILImage) (text : List Char) (author : Option (List Char))
    (h : pyWords text = []) :
    (applyTextOverlay mW mH env img text author).out.width = img.width ∧
    (applyTextOverlay mW mH env img text author).out.height = img.height ∧
    ∀ f B, wrapLines (mW f) B (pyWords text) = [[]] := by
  refine ⟨rfl, rfl, fun f B => ?_⟩
  rw [h]
  rfl

/-- C4 witness for the amended statement, on a whitespace-only quote. -/
theorem empty_quote_behavior_witness :
    pyWords [spaceChar] = [] ∧
    ((applyTextOverlay (fun _ s => s.length) (fun _ _ => 10) (fun _ => false)
        ⟨100, 150, "RGB"⟩ [spaceChar] none).out.width
        = (⟨100, 150, "RGB"⟩ : PILImage).width ∧
     (applyTextOverlay (fun _ s => s.length) (fun _ _ => 10) (fun _ => false)
        ⟨100, 150, "RGB"⟩ [spaceChar] none).out.height
        = (⟨100, 150, "RGB"⟩ : PILImage).height ∧
     ∀ f B, wrapLines ((fun (_ : Font) (s : List Char) => s.length) f) B
        (pyWords [spaceChar]) = [[]]) :=
  ⟨by decide,
    empty_quote_behavior (fun _ s => s.length) (fun _ _ => 10) (fun _ => false)
      ⟨100, 150, "RGB"⟩ [spaceChar] none (by decide)⟩

/-- C5: with a non-empty author, the total laid-out block height is the
quote-block height plus the author line height plus `2 * line_spacing`, and
the author line drawn last is exactly `"- "` followed by the author. -/
theorem author_layout (mW mH : Font → List Char → Nat) (env : String → Bool)
    (img : PILImage) (text : List Char) (author : List Char)
    (mhF mhB : List Char → Nat) (spacing : Nat) (lines : List (List Char))
    (h : author ≠ []) :
    totalBlockHeight mhF mhB spacing lines (some author)
      = quoteHeight mhF spacing lines
        + (mhB ('-' :: spaceChar :: author) + 2 * spacing) ∧
    ∃ x y, (applyTextOverlay mW mH env img text (some author)).draws.getLast?
      = some (x, y, '-' :: spaceChar :: author) := by
  obtain ⟨a, as, rfl⟩ : ∃ a as, author = a :: as := by
    cases author with
    | nil => exact absurd rfl h
    | cons a as => exact ⟨a, as, rfl⟩
  constructor
  · simp only [totalBlockHeight, authorLine, isTruthy, if_pos, Option.getD_some]
    omega
  · exact ⟨_, _, List.getLast?_concat _⟩

/-- C5 witness. -/
theorem author_layout_witness :
    (['E', 'i', 'n', 's', 't', 'e', 'i', 'n'] : List Char) ≠ [] ∧
    (totalBlockHeight (fun _ => 3) (fun _ => 4) 2 [['q']]
        (some ['E', 'i', 'n', 's', 't', 'e', 'i', 'n'])
      = quoteHeight (fun _ => 3) 2 [['q']] + (4 + 2 * 2) ∧
     ∃ x y, (applyTextOverlay (fun _ s => s.length) (fun _ _ => 7) (fun _ => true)
        ⟨200, 300, "RGB"⟩ ['h', 'i']
        (some ['E', 'i', 'n', 's', 't', 'e', 'i', 'n'])).draws.getLast?
      = some (x, y, '-' :: spaceChar :: ['E', 'i', 'n', 's', 't', 'e', 'i', 'n'])) :=
  ⟨by decide,
    author_layout (fun _ s => s.length) (fun _ _ => 7) (fun _ => true)
      ⟨200, 300, "RGB"⟩ ['h', 'i'] ['E', 'i', 'n', 's', 't', 'e', 'i', 'n']
      (fun _ => 3) (fun _ => 4) 2 [['q']] (by decide)⟩

/-- C6 counterexample: even in an environment where every candidate face
loads (so a distinct bold face would be resolvable), the author font is the
primary face at the primary size, not at `round(fontSizePrimary * 1.2)`:
with `fontSizePrimary = 20` the spec prescribes size 24, the code uses 20. -/
theorem author_font_size_cex :
    (resolveFonts (fun _ => true) 20).2
      = Font.truetype "/usr/share/fonts/truetype/dejavu/DejaVuSans.ttf" 20 ∧
    specFontSizeAuthor 20 = 24 ∧
    (resolveFonts (fun _ => true) 20).2
      ≠ Font.truetype "/usr/share/fonts/truetype/dejavu/DejaVuSans.ttf"
          (specFontSizeAuthor 20) := by
  decide

/-- C6 amended: the author line always uses exactly the primary font at the
primary size `int(H / 15)`; the code performs no bold-face resolution and no
`1.2` size scaling (`bold_font = font` in every branch). -/
theorem author_font_always_primary (env : String → Bool) (font_size : Nat) :
    (resolveFonts env font_size).2 = (resolveFonts env font_size).1 := by
  cases h : possible_fonts.find? env <;> simp [resolveFonts, h]

/-- C7: font resolution is a total function — the loop absorbs every load
failure — and when every external candidate fails to load, the built-in
default font is used for both the primary and the author font. -/
theorem font_fallback (env : String → Bool) (font_size : Nat)
    (h : ∀ p ∈ possible_fonts, env p = false) :
    resolveFonts env font_size = (Font.builtin, Font.builtin) := by
  have hnone : possible_fonts.find? env = none :=
    List.find?_eq_none.mpr (by intro x hx; simp [h x hx])
  simp [resolveFonts, hnone]

/-- C7 witness. -/
theorem font_fallback_witness :
    (∀ p ∈ possible_fonts, (fun (_ : String) => false) p = false) ∧
    resolveFonts (fun _ => false) 10 = (Font.builtin, Font.builtin) :=
  ⟨by decide, font_fallback (fun _ => false) 10 (by decide)⟩

/-- C8: for every decodable input image and valid quote input, the output
image has exactly the input's pixel dimensions and is an opaque 3-channel
`"RGB"` image saved as JPEG at quality 95. -/
theorem output_format (decode : List Nat → Option PILImage) (bs : List Nat)
    (img : PILImage) (mW mH : Font → List Char → Nat) (env : String → Bool)
    (text : List Char) (author : Option (List Char))
    (hdec : decode bs = some img) (hq : pyWords text ≠ []) :
    (applyTextOverlay mW mH env img text author).out.width = img.width ∧
    (applyTextOverlay mW mH env img text author).out.height = img.height ∧
    (applyTextOverlay mW mH env img text author).out.mode = "RGB" ∧
    (applyTextOverlay mW mH env img text author).fmt = "JPEG" ∧
    (applyTextOverlay mW mH env img text author).quality = 95 :=
  ⟨rfl, rfl, rfl, rfl, rfl⟩

/-- C8 witness. -/
theorem output_format_witness :
    (fun (_ : List Nat) => some (⟨8, 45, "L"⟩ : PILImage)) [0] = some ⟨8, 45, "L"⟩ ∧
    pyWords ['q'] ≠ [] ∧
    ((applyTextOverlay (fun _ s => s.length) (fun _ _ => 3) (fun _ => false)
        ⟨8, 45, "L"⟩ ['q'] none).out.width = (⟨8, 45, "L"⟩ : PILImage).width ∧
     (applyTextOverlay (fun _ s => s.length) (fun _ _ => 3) (fun _ => false)
        ⟨8, 45, "L"⟩ ['q'] none).out.height = (⟨8, 45, "L"⟩ : PILImage).height ∧
     (applyTextOverlay (fun _ s => s.length) (fun _ _ => 3) (fun _ => false)
        ⟨8, 45, "L"⟩ ['q'] none).out.mode = "RGB" ∧
     (applyTextOverlay (fun _ s => s.length) (fun _ _ => 3) (fun _ => false)
        ⟨8, 45, "L"⟩ ['q'] none).fmt = "JPEG" ∧
     (applyTextOverlay (fun _ s => s.length) (fun _ _ => 3) (fun _ => false)
        ⟨8, 45, "L"⟩ ['q'] none).quality = 95) :=
  ⟨rfl, by decide,
    output_format (fun _ => some ⟨8, 45, "L"⟩) [0] ⟨8, 45, "L"⟩
      (fun _ s => s.length) (fun _ _ => 3) (fun _ => false) ['q'] none rfl (by decide)⟩

/-- C9: the compositor is deterministic — with the same font metrics, two
runs on identical inputs produce the same wrapped-line sequence and the same
draw coordinates for every line. -/
theorem compose_deterministic (mW1 mW2 mH1 mH2 : Font → List Char → Nat)
    (env : String → Bool) (img : PILImage) (text : List Char)
    (author : Option (List Char)) (hW : mW1 = mW2) (hH : mH1 = mH2) :
    applyTextOverlay mW1 mH1 env img text author
      = applyTextOverlay mW2 mH2 env img text author ∧
    ∀ f B, wrapLines (mW1 f) B (pyWords text) = wrapLines (mW2 f) B (pyWords text) := by
  subst hW
  subst hH
  exact ⟨rfl, fun _ _ => rfl⟩

/-- C9 witness. -/
theorem compose_deterministic_witness :
    (fun (_ : Font) (s : List Char) => s.length) = (fun _ s => s.length) ∧
    (fun (_ : Font) (_ : List Char) => 5) = (fun _ _ => 5) ∧
    (applyTextOverlay (fun _ s => s.length) (fun _ _ => 5) (fun _ => true)
        ⟨60, 90, "RGB"⟩ ['o', 'k'] none
      = applyTextOverlay (fun _ s => s.length) (fun _ _ => 5) (fun _ => true)
        ⟨60, 90, "RGB"⟩ ['o', 'k'] none ∧
     ∀ f B, wrapLines ((fun (_ : Font) (s : List Char) => s.length) f) B
          (pyWords ['o', 'k'])
        = wrapLines ((fun (_ : Font) (s : List Char) => s.length) f) B
          (pyWords ['o', 'k'])) :=
  ⟨rfl, rfl,
    compose_deterministic (fun _ s => s.length) (fun _ s => s.length)
      (fun _ _ => 5) (fun _ _ => 5) (fun _ => true) ⟨60, 90, "RGB"⟩
      ['o', 'k'] none rfl rfl⟩

/-- C10: an empty author string behaves exactly like no author at all — the
truthiness test `if author:` is false for both — so no author line is drawn
and the total block height is exactly the quote-block height. -/
theorem empty_author_as_none (mW mH : Font → List Char → Nat) (env : String → Bool)
    (img : PILImage) (text : List Char) (mhF mhB : List Char → Nat)
    (spacing : Nat) (lines : List (List Char)) :
    applyTextOverlay mW mH env img text (some [])
      = applyTextOverlay mW mH env img text none ∧
    totalBlockHeight mhF mhB spacing lines (some [])
      = quoteHeight mhF spacing lines := by
  constructor
  · rfl
  · simp [totalBlockHeight, isTruthy]

end ArmorIQ
